import Mathlib

/-!
Verification of the libhash open-addressing hash table (src/src/hash_table.c,
src/include/libhash.h).

Shallow embedding notes:
* Keys are `String` (C `const char *`, compared with `strcmp`); values are `Nat`
  (standing in for the opaque `void *` payload).  The `free_value` ownership
  flag only controls deallocation in C and has no observable effect on the
  table contents, so it is dropped.
* A slot (`ht_entry *`) is `NULL` (`Slot.empty`), the static sentinel
  `&HT_SENTINEL_ENTRY` (`Slot.tomb`), or a pointer to an entry (`Slot.occ`).
* The probe function `h_resolve_hash` (hash.c) and the sizing function
  `next_prime` (prime.c) are external collaborators whose sources are not part
  of the provided files; the operations are parameterised by a probe function
  `probe : String → Nat → Nat → Nat`, and `next_prime` is modelled from the
  spec (smallest prime that is at least the requested value).
* The C `while` loops are unbounded; each loop (and the resize/insert mutual
  recursion) is modelled with an explicit fuel parameter, `none` meaning the
  C execution would not have terminated within that many iterations.
* `count` is a C `int` and is modelled as `Int`; all loads computed in the
  claims have non-negative operands, where C and Lean integer division agree.
* Out-of-range slot reads (C undefined behaviour) read as `Slot.empty` via
  `List.getD`, and out-of-range writes are dropped by `List.set`; every
  theorem that needs in-range indices carries the corresponding hypotheses.
-/

namespace LibHash

/-- A hash table entry, i.e. a key / value pair (struct ht_entry). -/
structure ht_entry where
  key : String
  value : Nat
deriving DecidableEq

/-- One slot of the table: NULL, the HT_SENTINEL_ENTRY tombstone, or an entry. -/
inductive Slot where
  | empty
  | tomb
  | occ (e : ht_entry)
deriving DecidableEq

/-- The hash table (struct hash_table).  `capacity` is the slot-array length in
every reachable state; `entries` is the slot array itself. -/
structure hash_table where
  capacity : Nat
  base_capacity : Nat
  count : Int
  entries : List Slot
deriving DecidableEq

/-- HT_DEFAULT_CAPACITY from libhash.h. -/
def HT_DEFAULT_CAPACITY : Nat := 50

/-- Trial-division primality test, used only by the modelled sizer. -/
def isPrime (n : Nat) : Bool :=
  decide (2 ≤ n) && (List.range n).all (fun m => decide (m ≤ 1) || decide (n % m ≠ 0))

/-- Fuel-bounded scan for the next prime. -/
def np_aux : Nat → Nat → Nat
  | 0, n => n
  | f + 1, n => if isPrime n then n else np_aux f (n + 1)

/-- Modelled from the spec: the capacity sizer `next_prime` (prime.c is not
among the provided sources) — "a function that, given a requested base
capacity, returns the smallest usable table capacity at least as large
(conventionally the next prime ≥ requested value)".  By Bertrand's postulate
the fuel `n + 3` always suffices to reach a prime. -/
def next_prime (n : Nat) : Nat := np_aux (n + 3) n

/-- ht_init: zero selects the default base capacity; the capacity is the
sizer's output and all slots start NULL (calloc). -/
def ht_init (base_capacity : Nat) : hash_table :=
  let bc := if base_capacity = 0 then HT_DEFAULT_CAPACITY else base_capacity
  { capacity := next_prime bc
    base_capacity := bc
    count := 0
    entries := List.replicate (next_prime bc) Slot.empty }

/-- Read `ht->entries[idx]`; an out-of-range read (C UB) yields `Slot.empty`. -/
def slotAt (ht : hash_table) (idx : Nat) : Slot :=
  ht.entries.getD idx Slot.empty

/-- The probe loop of `__ht_insert`: starting from slot `idx` (attempt `i - 1`),
walk while the slot holds an entry; overwrite on a key match, otherwise install
the new entry at the first NULL or sentinel slot and bump `count`. -/
def insertWalk (probe : String → Nat → Nat → Nat) :
    Nat → hash_table → String → Nat → Nat → Nat → Option hash_table
  | 0, _, _, _, _, _ => none
  | f + 1, ht, key, value, idx, i =>
    match slotAt ht idx with
    | Slot.occ e =>
      if e.key = key then
        some { ht with entries := ht.entries.set idx (Slot.occ ⟨key, value⟩) }
      else
        insertWalk probe f ht key value (probe key ht.capacity i) (i + 1)
    | _ =>
      some { ht with entries := ht.entries.set idx (Slot.occ ⟨key, value⟩)
                     count := ht.count + 1 }

/-- The body of ht_resize's rebuild loop: re-insert a non-NULL, non-sentinel
entry into the table being built, skip NULL and sentinel slots. -/
def reinsert_step (ins : hash_table → String → Nat → Option hash_table)
    (acc : hash_table) (s : Slot) : Option hash_table :=
  match s with
  | Slot.occ e => ins acc e.key e.value
  | _ => some acc

/-- ht_resize: no-op on a negative base capacity, otherwise rebuild into a
fresh `ht_init base` table by re-inserting every non-NULL, non-sentinel entry
in slot order (the C code then swaps the rebuilt fields into `ht`).  The
re-insertion function `ins` is a parameter because `__ht_insert` and
`ht_resize` are mutually recursive in C. -/
def ht_resize (ins : hash_table → String → Nat → Option hash_table)
    (ht : hash_table) (base_capacity : Int) : Option hash_table :=
  if base_capacity < 0 then some ht
  else ht.entries.foldlM (reinsert_step ins) (ht_init base_capacity.toNat)

/-- ht_resize_up: resize to twice the base capacity. -/
def ht_resize_up (ins : hash_table → String → Nat → Option hash_table)
    (ht : hash_table) : Option hash_table :=
  ht_resize ins ht ((ht.base_capacity : Int) * 2)

/-- ht_resize_down: resize to half the base capacity. -/
def ht_resize_down (ins : hash_table → String → Nat → Option hash_table)
    (ht : hash_table) : Option hash_table :=
  ht_resize ins ht ((ht.base_capacity : Int) / 2)

/-- __ht_insert: grow first when `count * 100 / capacity > 70`, then run the
probe loop from attempt 0. -/
def insertGo (probe : String → Nat → Nat → Nat) :
    Nat → hash_table → String → Nat → Option hash_table
  | 0, _, _, _ => none
  | f + 1, ht, key, value =>
    match (if ht.count * 100 / (ht.capacity : Int) > 70
           then ht_resize_up (insertGo probe f) ht
           else some ht) with
    | none => none
    | some ht2 => insertWalk probe (f + 1) ht2 key value (probe key ht2.capacity 0) 1

/-- ht_insert (the `free_value` flag has no observable effect on contents). -/
def ht_insert (probe : String → Nat → Nat → Nat)
    (fuel : Nat) (ht : hash_table) (key : String) (value : Nat) : Option hash_table :=
  insertGo probe fuel ht key value

/-- The probe loop of `__ht_delete`: on a key match replace the slot with the
sentinel, decrement `count` and return 1; stop with 0 at a NULL or sentinel
slot. -/
def deleteWalk (probe : String → Nat → Nat → Nat) :
    Nat → hash_table → String → Nat → Nat → Option (Nat × hash_table)
  | 0, _, _, _, _ => none
  | f + 1, ht, key, idx, i =>
    match slotAt ht idx with
    | Slot.occ e =>
      if e.key = key then
        some (1, { ht with entries := ht.entries.set idx Slot.tomb
                           count := ht.count - 1 })
      else
        deleteWalk probe f ht key (probe key ht.capacity (i + 1)) (i + 1)
    | _ => some (0, ht)

/-- __ht_delete: shrink first when `count * 100 / capacity < 10`, then run the
probe loop from attempt 0. -/
def deleteGo (probe : String → Nat → Nat → Nat) :
    Nat → hash_table → String → Option (Nat × hash_table)
  | 0, _, _ => none
  | f + 1, ht, key =>
    match (if ht.count * 100 / (ht.capacity : Int) < 10
           then ht_resize_down (insertGo probe f) ht
           else some ht) with
    | none => none
    | some ht2 => deleteWalk probe (f + 1) ht2 key (probe key ht2.capacity 0) 0

/-- ht_delete: returns 1 when an entry was removed, 0 otherwise. -/
def ht_delete (probe : String → Nat → Nat → Nat)
    (fuel : Nat) (ht : hash_table) (key : String) : Option (Nat × hash_table) :=
  deleteGo probe fuel ht key

/-- The probe loop of `ht_search`: return the entry on a key match, NULL at a
NULL or sentinel slot. -/
def searchWalk (probe : String → Nat → Nat → Nat) :
    Nat → hash_table → String → Nat → Nat → Option (Option ht_entry)
  | 0, _, _, _, _ => none
  | f + 1, ht, key, idx, i =>
    match slotAt ht idx with
    | Slot.occ e =>
      if e.key = key then some (some e)
      else searchWalk probe f ht key (probe key ht.capacity i) (i + 1)
    | _ => some none

/-- ht_search from attempt 0 (inner `none` is the C NULL result). -/
def ht_search (probe : String → Nat → Nat → Nat)
    (fuel : Nat) (ht : hash_table) (key : String) : Option (Option ht_entry) :=
  searchWalk probe fuel ht key (probe key ht.capacity 0) 1

/-- ht_get: `r ? r->value : NULL`. -/
def ht_get (probe : String → Nat → Nat → Nat)
    (fuel : Nat) (ht : hash_table) (key : String) : Option (Option Nat) :=
  (ht_search probe fuel ht key).map (Option.map ht_entry.value)

/-- The key stored in a slot, if the slot holds an entry. -/
def slotKey : Slot → Option String
  | Slot.occ e => some e.key
  | _ => none

/-- Keys of the occupied slots of a slot list, in slot order. -/
def occKeysL (l : List Slot) : List String := l.filterMap slotKey

/-- Keys of the occupied slots of a table. -/
def occKeys (ht : hash_table) : List String := occKeysL ht.entries

/-- The probe function always returns an index inside a non-empty table
(the spec's contract for the external probe-index function). -/
def ProbeOk (probe : String → Nat → Nat → Nat) : Prop :=
  ∀ k c i, 0 < c → probe k c i < c

/-- A key/value pair is retrievable: some finite number of loop iterations of
`ht_search` returns its entry. -/
def Found (probe : String → Nat → Nat → Nat)
    (ht : hash_table) (k : String) (v : Nat) : Prop :=
  ∃ fuel, ht_search probe fuel ht k = some (some ⟨k, v⟩)

/-- No slot holds the tombstone sentinel. -/
def NoTomb (ht : hash_table) : Prop := Slot.tomb ∉ ht.entries

/-- The spec's data-model invariants (§3): the slot array has the advertised
capacity and is non-empty, no two occupied slots share a key, `count` is the
number of occupied slots, and every occupied entry is reachable through the
probe sequence. -/
def INV (probe : String → Nat → Nat → Nat) (ht : hash_table) : Prop :=
  ht.entries.length = ht.capacity ∧
  0 < ht.capacity ∧
  (occKeys ht).Nodup ∧
  ht.count = ((occKeys ht).length : Int) ∧
  ∀ e : ht_entry, Slot.occ e ∈ ht.entries → Found probe ht e.key e.value

/-- The contract of one `__ht_insert` call on a table satisfying the data-model
invariants: the invariants are preserved, no tombstone is created, entries with
other keys are untouched, the inserted pair is present (and, by `INV`'s key
uniqueness, is the only entry for its key), and `count` grows by one exactly
when the key was not already occupying a slot. -/
def InsertPost (probe : String → Nat → Nat → Nat)
    (ht : hash_table) (k : String) (v : Nat) (ht' : hash_table) : Prop :=
  INV probe ht' ∧
  (NoTomb ht → NoTomb ht') ∧
  (∀ e : ht_entry, e.key ≠ k → (Slot.occ e ∈ ht'.entries ↔ Slot.occ e ∈ ht.entries)) ∧
  Slot.occ ⟨k, v⟩ ∈ ht'.entries ∧
  ht'.count = ht.count + (if k ∈ occKeys ht then 0 else 1)

/-- A concrete probe instance used for witnesses: every key starts at slot 0
and probes linearly, the worst legal hash (maximal collisions). -/
def probe0 (_key : String) (capacity attempt : Nat) : Nat := attempt % capacity

/-! ### Basic facts about the sizer and the slot list -/

theorem np_aux_ge : ∀ f n, n ≤ np_aux f n := by
  intro f
  induction f with
  | zero => intro n; simp [np_aux]
  | succ f ih =>
    intro n
    simp only [np_aux]
    by_cases h : isPrime n
    · simp [h]
    · simp only [h, if_false]
      exact Nat.le_trans (Nat.le_succ n) (ih (n + 1))

theorem next_prime_pos (n : Nat) : 0 < next_prime n := by
  cases n with
  | zero => decide
  | succ m =>
    have h := np_aux_ge (m + 1 + 3) (m + 1)
    exact Nat.lt_of_lt_of_le (Nat.succ_pos m) h

theorem lh_getD_set_self : ∀ (l : List Slot) (j : Nat) (b : Slot),
    j < l.length → (l.set j b).getD j Slot.empty = b := by
  intro l
  induction l with
  | nil => intro j b h; simp at h
  | cons x xs ih =>
    intro j b h
    cases j with
    | zero => rfl
    | succ j =>
      simp only [List.set]
      simpa using ih j b (by simpa using h)

theorem lh_getD_set_ne : ∀ (l : List Slot) (j i : Nat) (b : Slot),
    i ≠ j → (l.set j b).getD i Slot.empty = l.getD i Slot.empty := by
  intro l
  induction l with
  | nil => intro j i b _; simp [List.set]
  | cons x xs ih =>
    intro j i b hij
    cases j with
    | zero =>
      cases i with
      | zero => exact absurd rfl hij
      | succ i => rfl
    | succ j =>
      cases i with
      | zero => rfl
      | succ i =>
        simp only [List.set]
        simpa using ih j i b (fun h => hij (by rw [h]))

theorem lh_getD_occ_mem : ∀ (l : List Slot) (j : Nat) (e : ht_entry),
    l.getD j Slot.empty = Slot.occ e → Slot.occ e ∈ l := by
  intro l
  induction l with
  | nil => intro j e h; cases j <;> simp [List.getD] at h
  | cons x xs ih =>
    intro j e h
    cases j with
    | zero => simp only [List.getD] at h; simp [← h]
    | succ j =>
      have : Slot.occ e ∈ xs := ih j e (by simpa [List.getD] using h)
      exact List.mem_cons_of_mem _ this

theorem lh_getD_occ_lt : ∀ (l : List Slot) (j : Nat) (e : ht_entry),
    l.getD j Slot.empty = Slot.occ e → j < l.length := by
  intro l
  induction l with
  | nil => intro j e h; cases j <;> simp [List.getD] at h
  | cons x xs ih =>
    intro j e h
    cases j with
    | zero => simp
    | succ j =>
      have : j < xs.length := ih j e (by simpa [List.getD] using h)
      simpa using Nat.succ_lt_succ this

theorem lh_mem_set : ∀ (l : List Slot) (j : Nat) (b a : Slot),
    a ∈ l.set j b → a ∈ l ∨ a = b := by
  intro l
  induction l with
  | nil => intro j b a h; simp [List.set] at h
  | cons x xs ih =>
    intro j b a h
    cases j with
    | zero =>
      rcases List.mem_cons.mp h with h | h
      · exact Or.inr h
      · exact Or.inl (List.mem_cons_of_mem _ h)
    | succ j =>
      rcases List.mem_cons.mp h with h | h
      · exact Or.inl (by simp [h])
      · rcases ih j b a h with h | h
        · exact Or.inl (List.mem_cons_of_mem _ h)
        · exact Or.inr h

theorem lh_mem_set_self : ∀ (l : List Slot) (j : Nat) (b : Slot),
    j < l.length → b ∈ l.set j b := by
  intro l
  induction l with
  | nil => intro j b h; simp at h
  | cons x xs ih =>
    intro j b h
    cases j with
    | zero => simp [List.set]
    | succ j => exact List.mem_cons_of_mem _ (ih j b (by simpa using h))

theorem lh_mem_set_of_ne_getD : ∀ (l : List Slot) (j : Nat) (b a : Slot),
    a ∈ l → l.getD j Slot.empty ≠ a → a ∈ l.set j b := by
  intro l
  induction l with
  | nil => intro j b a h _; simp at h
  | cons x xs ih =>
    intro j b a h hne
    cases j with
    | zero =>
      rcases List.mem_cons.mp h with h | h
      · exact absurd (by simpa [List.getD] using h.symm) hne
      · exact List.mem_cons_of_mem _ h
    | succ j =>
      rcases List.mem_cons.mp h with h | h
      · simp [List.set, h]
      · exact List.mem_cons_of_mem _ (ih j b a h (by simpa [List.getD] using hne))

/-! ### Occupied-key lists -/

theorem mem_occKeysL (l : List Slot) (k : String) :
    k ∈ occKeysL l ↔ ∃ v, Slot.occ ⟨k, v⟩ ∈ l := by
  constructor
  · intro h
    rcases List.mem_filterMap.mp h with ⟨s, hs, hf⟩
    cases s with
    | occ e =>
      refine ⟨e.value, ?_⟩
      have : e.key = k := by simpa [slotKey] using hf
      cases e
      simp only at this
      simpa [this] using hs
    | empty => simp [slotKey] at hf
    | tomb => simp [slotKey] at hf
  · rintro ⟨v, hv⟩
    exact List.mem_filterMap.mpr ⟨Slot.occ ⟨k, v⟩, hv, rfl⟩

theorem occ_key_mem_occKeysL (l : List Slot) (e : ht_entry) (h : Slot.occ e ∈ l) :
    e.key ∈ occKeysL l :=
  List.mem_filterMap.mpr ⟨Slot.occ e, h, rfl⟩

theorem occKeysL_set_congr : ∀ (l : List Slot) (j : Nat) (b : Slot),
    slotKey (l.getD j Slot.empty) = slotKey b →
    occKeysL (l.set j b) = occKeysL l := by
  intro l
  induction l with
  | nil => intro j b _; simp [List.set]
  | cons x xs ih =>
    intro j b h
    cases j with
    | zero =>
      simp only [List.getD_cons_zero] at h
      simp only [List.set, occKeysL, List.filterMap_cons, h]
    | succ j =>
      simp only [List.getD_cons_succ] at h
      have := ih j b h
      simp only [occKeysL] at this
      simp only [List.set, occKeysL, List.filterMap_cons, this]

theorem occKeysL_set_fresh : ∀ (l : List Slot) (j : Nat) (e : ht_entry),
    j < l.length →
    slotKey (l.getD j Slot.empty) = none →
    (occKeysL (l.set j (Slot.occ e))).Perm (e.key :: occKeysL l) := by
  intro l
  induction l with
  | nil => intro j e h _; simp at h
  | cons x xs ih =>
    intro j e hj h
    cases j with
    | zero =>
      simp only [List.getD_cons_zero] at h
      cases x with
      | occ e0 => simp [slotKey] at h
      | empty => simp [List.set, occKeysL, List.filterMap_cons, slotKey]
      | tomb => simp [List.set, occKeysL, List.filterMap_cons, slotKey]
    | succ j =>
      simp only [List.getD_cons_succ] at h
      have hperm := ih j e (by simpa using hj) h
      simp only [List.set, occKeysL, List.filterMap_cons]
      cases x with
      | occ e0 =>
        simp only [slotKey]
        exact (hperm.cons e0.key).trans (List.Perm.swap _ _ _)
      | empty => simpa [occKeysL, slotKey] using hperm
      | tomb => simpa [occKeysL, slotKey] using hperm

theorem occKeysL_replicate_empty (n : Nat) :
    occKeysL (List.replicate n Slot.empty) = [] := by
  induction n with
  | zero => rfl
  | succ n ih => simp [List.replicate, occKeysL, List.filterMap_cons, slotKey, ih]

theorem occ_not_mem_replicate (n : Nat) (e : ht_entry) :
    Slot.occ e ∉ List.replicate n Slot.empty := by
  intro h
  have := List.eq_of_mem_replicate h
  simp at this

theorem nodup_occ_unique : ∀ (l : List Slot), (occKeysL l).Nodup →
    ∀ (e1 e2 : ht_entry), Slot.occ e1 ∈ l → Slot.occ e2 ∈ l → e1.key = e2.key → e1 = e2 := by
  intro l
  induction l with
  | nil => intro _ e1 e2 h; simp at h
  | cons x xs ih =>
    intro hnd e1 e2 h1 h2 hk
    rcases List.mem_cons.mp h1 with h1 | h1 <;> rcases List.mem_cons.mp h2 with h2 | h2
    · rw [← h1] at h2; exact (Slot.occ.inj h2).symm
    · exfalso
      have hx : x = Slot.occ e1 := h1.symm
      rw [hx] at hnd
      simp only [occKeysL, List.filterMap_cons, slotKey] at hnd
      have hnd2 := List.nodup_cons.mp hnd
      exact hnd2.1 (hk ▸ occ_key_mem_occKeysL xs e2 h2)
    · exfalso
      have hx : x = Slot.occ e2 := h2.symm
      rw [hx] at hnd
      simp only [occKeysL, List.filterMap_cons, slotKey] at hnd
      have hnd2 := List.nodup_cons.mp hnd
      exact hnd2.1 (hk ▸ occ_key_mem_occKeysL xs e1 h1)
    · have hnd' : (occKeysL xs).Nodup := by
        simp only [occKeysL, List.filterMap_cons, slotKey] at hnd
        cases x with
        | occ e0 => exact (List.nodup_cons.mp hnd).2
        | empty => exact hnd
        | tomb => exact hnd
      exact ih hnd' e1 e2 h1 h2 hk

theorem nodup_occ_getD : ∀ (l : List Slot), (occKeysL l).Nodup →
    ∀ (p1 p2 : Nat) (e1 e2 : ht_entry),
    l.getD p1 Slot.empty = Slot.occ e1 → l.getD p2 Slot.empty = Slot.occ e2 →
    e1.key = e2.key → p1 = p2 := by
  intro l
  induction l with
  | nil =>
    intro _ p1 p2 e1 e2 h1 _ _
    cases p1 <;> simp [List.getD] at h1
  | cons x xs ih =>
    intro hnd p1 p2 e1 e2 h1 h2 hk
    have hnd' : (occKeysL xs).Nodup := by
      simp only [occKeysL, List.filterMap_cons, slotKey] at hnd
      cases x with
      | occ e0 => exact (List.nodup_cons.mp hnd).2
      | empty => exact hnd
      | tomb => exact hnd
    cases p1 with
    | zero =>
      cases p2 with
      | zero => rfl
      | succ p2 =>
        exfalso
        simp only [List.getD_cons_zero] at h1
        simp only [List.getD_cons_succ] at h2
        rw [h1] at hnd
        simp only [occKeysL, List.filterMap_cons, slotKey] at hnd
        have := (List.nodup_cons.mp hnd).1
        exact this (hk ▸ occ_key_mem_occKeysL xs e2 (lh_getD_occ_mem xs p2 e2 h2))
    | succ p1 =>
      cases p2 with
      | zero =>
        exfalso
        simp only [List.getD_cons_zero] at h2
        simp only [List.getD_cons_succ] at h1
        rw [h2] at hnd
        simp only [occKeysL, List.filterMap_cons, slotKey] at hnd
        have := (List.nodup_cons.mp hnd).1
        exact this (hk ▸ occ_key_mem_occKeysL xs e1 (lh_getD_occ_mem xs p1 e1 h1))
      | succ p2 =>
        have := ih hnd' p1 p2 e1 e2 (by simpa [List.getD] using h1)
          (by simpa [List.getD] using h2) hk
        simp [this]

/-! ### The search loop -/

theorem searchWalk_mono (probe : String → Nat → Nat → Nat) :
    ∀ (f : Nat) (ht : hash_table) (k : String) (idx i : Nat) (r : Option ht_entry),
    searchWalk probe f ht k idx i = some r →
    ∀ f', f ≤ f' → searchWalk probe f' ht k idx i = some r := by
  intro f
  induction f with
  | zero => intro ht k idx i r h; simp [searchWalk] at h
  | succ f ih =>
    intro ht k idx i r h f' hle
    obtain ⟨f2, rfl⟩ : ∃ f2, f' = f2 + 1 := ⟨f' - 1, by omega⟩
    simp only [searchWalk] at h ⊢
    cases hs : slotAt ht idx with
    | occ e =>
      rw [hs] at h
      by_cases hk : e.key = k
      · simpa [hk] using h
      · simp only [hk, if_false] at h ⊢
        exact ih ht k _ _ r h f2 (by omega)
    | empty => rw [hs] at h; exact h
    | tomb => rw [hs] at h; exact h

theorem ht_search_mono (probe : String → Nat → Nat → Nat)
    (f : Nat) (ht : hash_table) (k : String) (r : Option ht_entry)
    (h : ht_search probe f ht k = some r) :
    ∀ f', f ≤ f' → ht_search probe f' ht k = some r :=
  fun f' hle => searchWalk_mono probe f ht k _ 1 r h f' hle

theorem found_not_notfound (probe : String → Nat → Nat → Nat)
    (ht : hash_table) (k : String) (v : Nat) (f : Nat)
    (hfound : Found probe ht k v) (hnone : ht_search probe f ht k = some none) : False := by
  obtain ⟨f0, h0⟩ := hfound
  have h1 := ht_search_mono probe f0 ht k _ h0 (max f0 f) (Nat.le_max_left _ _)
  have h2 := ht_search_mono probe f ht k _ hnone (max f0 f) (Nat.le_max_right _ _)
  rw [h1] at h2
  simp at h2

theorem found_unique (probe : String → Nat → Nat → Nat)
    (ht : hash_table) (k : String) (v1 v2 : Nat)
    (h1 : Found probe ht k v1) (h2 : Found probe ht k v2) : v1 = v2 := by
  obtain ⟨f1, e1⟩ := h1
  obtain ⟨f2, e2⟩ := h2
  have g1 := ht_search_mono probe f1 ht k _ e1 (max f1 f2) (Nat.le_max_left _ _)
  have g2 := ht_search_mono probe f2 ht k _ e2 (max f1 f2) (Nat.le_max_right _ _)
  rw [g1] at g2
  have he : (⟨k, v1⟩ : ht_entry) = ⟨k, v2⟩ := Option.some.inj (Option.some.inj g2)
  exact congrArg ht_entry.value he

theorem searchWalk_found_mem (probe : String → Nat → Nat → Nat) :
    ∀ (f : Nat) (ht : hash_table) (k : String) (idx i : Nat) (e : ht_entry),
    searchWalk probe f ht k idx i = some (some e) →
    Slot.occ e ∈ ht.entries ∧ e.key = k := by
  intro f
  induction f with
  | zero => intro ht k idx i e h; simp [searchWalk] at h
  | succ f ih =>
    intro ht k idx i e h
    simp only [searchWalk] at h
    cases hs : slotAt ht idx with
    | occ e0 =>
      rw [hs] at h
      by_cases hk : e0.key = k
      · simp only [hk, if_true] at h
        have he : e0 = e := by simpa using h
        exact ⟨lh_getD_occ_mem ht.entries idx e (he ▸ hs), he ▸ hk⟩
      · simp only [hk, if_false] at h
        exact ih ht k _ _ e h
    | empty => rw [hs] at h; simp at h
    | tomb => rw [hs] at h; simp at h

theorem ht_search_found_mem (probe : String → Nat → Nat → Nat)
    (f : Nat) (ht : hash_table) (k : String) (e : ht_entry)
    (h : ht_search probe f ht k = some (some e)) :
    Slot.occ e ∈ ht.entries ∧ e.key = k :=
  searchWalk_found_mem probe f ht k _ 1 e h

theorem searchWalk_set_preserve (probe : String → Nat → Nat → Nat)
    (k : String) (j : Nat) (e1 : ht_entry) (he1 : e1.key ≠ k) (c : Int) :
    ∀ (f : Nat) (ht : hash_table) (idx i : Nat) (e : ht_entry),
    (slotAt ht j = Slot.empty ∨ slotAt ht j = Slot.tomb ∨
      ∃ e0 : ht_entry, slotAt ht j = Slot.occ e0 ∧ e0.key ≠ k) →
    searchWalk probe f ht k idx i = some (some e) →
    searchWalk probe f
      { ht with entries := ht.entries.set j (Slot.occ e1), count := c } k idx i =
      some (some e) := by
  intro f
  induction f with
  | zero => intro ht idx i e _ h; simp [searchWalk] at h
  | succ f ih =>
    intro ht idx i e hj h
    simp only [searchWalk] at h ⊢
    by_cases hij : idx = j
    · subst hij
      have hnew : slotAt { ht with entries := ht.entries.set idx (Slot.occ e1), count := c } idx =
          Slot.occ e1 ∨
          slotAt { ht with entries := ht.entries.set idx (Slot.occ e1), count := c } idx =
          slotAt ht idx := by
        by_cases hlt : idx < ht.entries.length
        · exact Or.inl (lh_getD_set_self ht.entries idx (Slot.occ e1) hlt)
        · right
          simp only [slotAt]
          rw [List.set_eq_of_length_le (by omega)]
      rcases hj with hj | hj | ⟨e0, hj, he0⟩
      · rw [hj] at h; simp at h
      · rw [hj] at h; simp at h
      · rw [hj] at h
        simp only [he0, if_false] at h
        rcases hnew with hnew | hnew
        · rw [hnew]
          simp only [he1, if_false]
          exact ih ht _ _ e (Or.inr (Or.inr ⟨e0, hj, he0⟩)) h
        · rw [hnew, hj]
          simp only [he0, if_false]
          exact ih ht _ _ e (Or.inr (Or.inr ⟨e0, hj, he0⟩)) h
    · have hnew : slotAt { ht with entries := ht.entries.set j (Slot.occ e1), count := c } idx =
          slotAt ht idx := lh_getD_set_ne ht.entries j idx (Slot.occ e1) hij
      rw [hnew]
      cases hs : slotAt ht idx with
      | occ e0 =>
        rw [hs] at h
        by_cases hk : e0.key = k
        · simpa [hk] using h
        · simp only [hk, if_false] at h ⊢
          exact ih ht _ _ e hj h
      | empty => rw [hs] at h; simp at h
      | tomb => rw [hs] at h; simp at h

theorem searchWalk_tombed (probe : String → Nat → Nat → Nat)
    (k : String) (j : Nat) (e : ht_entry) (c : Int) :
    ∀ (f : Nat) (ht : hash_table) (idx i : Nat) (r : ht_entry),
    (occKeys ht).Nodup → slotAt ht j = Slot.occ e → e.key = k →
    searchWalk probe f ht k idx i = some (some r) →
    searchWalk probe f { ht with entries := ht.entries.set j Slot.tomb, count := c } k idx i =
      some none := by
  intro f
  induction f with
  | zero => intro ht idx i r _ _ _ h; simp [searchWalk] at h
  | succ f ih =>
    intro ht idx i r hnd hj hk h
    simp only [searchWalk] at h ⊢
    by_cases hij : idx = j
    · subst hij
      have hlt : idx < ht.entries.length := lh_getD_occ_lt ht.entries idx e hj
      have hnew : slotAt { ht with entries := ht.entries.set idx Slot.tomb, count := c } idx =
          Slot.tomb := lh_getD_set_self ht.entries idx Slot.tomb hlt
      rw [hnew]
    · have hnew : slotAt { ht with entries := ht.entries.set j Slot.tomb, count := c } idx =
          slotAt ht idx := lh_getD_set_ne ht.entries j idx Slot.tomb hij
      rw [hnew]
      cases hs : slotAt ht idx with
      | occ e0 =>
        rw [hs] at h
        by_cases hk0 : e0.key = k
        · exfalso
          exact hij (nodup_occ_getD ht.entries hnd idx j e0 e hs hj (hk0.trans hk.symm))
        · simp only [hk0, if_false] at h ⊢
          exact ih ht _ _ r hnd hj hk h
      | empty => rfl
      | tomb => rfl

/-! ### The delete loop -/

theorem searchWalk_deleteWalk (probe : String → Nat → Nat → Nat) (k : String) :
    ∀ (fd fs : Nat) (ht : hash_table) (idx i : Nat) (e : ht_entry) (p : Nat × hash_table),
    searchWalk probe fs ht k idx (i + 1) = some (some e) →
    deleteWalk probe fd ht k idx i = some p →
    p.1 = 1 ∧ ∃ j, slotAt ht j = Slot.occ e ∧ j < ht.entries.length ∧
      p.2 = { ht with entries := ht.entries.set j Slot.tomb, count := ht.count - 1 } := by
  intro fd
  induction fd with
  | zero => intro fs ht idx i e p _ h; simp [deleteWalk] at h
  | succ fd ih =>
    intro fs ht idx i e p hsrch h
    cases fs with
    | zero => simp [searchWalk] at hsrch
    | succ fs =>
      simp only [searchWalk] at hsrch
      simp only [deleteWalk] at h
      cases hs : slotAt ht idx with
      | occ e0 =>
        rw [hs] at hsrch h
        by_cases hk : e0.key = k
        · simp only [hk, if_true] at hsrch h
          have he : e0 = e := Option.some.inj (Option.some.inj hsrch)
          have hp := Option.some.inj h
          refine ⟨?_, idx, he ▸ hs, lh_getD_occ_lt ht.entries idx e0 hs, ?_⟩
          · rw [← hp]
          · rw [← hp]
        · simp only [hk, if_false] at hsrch h
          exact ih fs ht _ (i + 1) e p hsrch h
      | empty => simp [hs] at hsrch
      | tomb => simp [hs] at hsrch

theorem deleteWalk_absent (probe : String → Nat → Nat → Nat) (k : String) :
    ∀ (f : Nat) (ht : hash_table) (idx i : Nat) (p : Nat × hash_table),
    (∀ e : ht_entry, Slot.occ e ∈ ht.entries → e.key ≠ k) →
    deleteWalk probe f ht k idx i = some p → p = (0, ht) := by
  intro f
  induction f with
  | zero => intro ht idx i p _ h; simp [deleteWalk] at h
  | succ f ih =>
    intro ht idx i p habs h
    simp only [deleteWalk] at h
    cases hs : slotAt ht idx with
    | occ e0 =>
      rw [hs] at h
      have hmem := lh_getD_occ_mem ht.entries idx e0 hs
      have hne : e0.key ≠ k := habs e0 hmem
      simp only [hne, if_false] at h
      exact ih ht _ _ p habs h
    | empty => rw [hs] at h; exact (Option.some.inj h).symm
    | tomb => rw [hs] at h; exact (Option.some.inj h).symm

/-! ### The insert loop -/

theorem insertWalk_post (probe : String → Nat → Nat → Nat) (hpr : ProbeOk probe)
    (k : String) (v : Nat) :
    ∀ (f : Nat) (ht : hash_table) (idx i : Nat) (ht' : hash_table),
    ht.entries.length = ht.capacity → 0 < ht.capacity → idx < ht.capacity →
    insertWalk probe f ht k v idx i = some ht' →
    ∃ j, j < ht.capacity ∧
      ht'.capacity = ht.capacity ∧ ht'.base_capacity = ht.base_capacity ∧
      ht'.entries = ht.entries.set j (Slot.occ ⟨k, v⟩) ∧
      ((∃ e0 : ht_entry, slotAt ht j = Slot.occ e0 ∧ e0.key = k ∧ ht'.count = ht.count ∧
          searchWalk probe f ht k idx i = some (some e0)) ∨
       ((slotAt ht j = Slot.empty ∨ slotAt ht j = Slot.tomb) ∧ ht'.count = ht.count + 1 ∧
          searchWalk probe f ht k idx i = some none)) ∧
      searchWalk probe f ht' k idx i = some (some ⟨k, v⟩) := by
  intro f
  induction f with
  | zero => intro ht idx i ht' _ _ _ h; simp [insertWalk] at h
  | succ f ih =>
    intro ht idx i ht' hlen hcap hidx h
    have hlt : idx < ht.entries.length := by rw [hlen]; exact hidx
    simp only [insertWalk] at h
    cases hs : slotAt ht idx with
    | occ e0 =>
      rw [hs] at h
      by_cases hk : e0.key = k
      · simp only [hk, if_true] at h
        obtain rfl := Option.some.inj h
        refine ⟨idx, hidx, rfl, rfl, rfl, Or.inl ⟨e0, hs, hk, rfl, ?_⟩, ?_⟩
        · simp only [searchWalk]
          rw [hs]
          simp [hk]
        · have hnew : slotAt
              { ht with entries := ht.entries.set idx (Slot.occ ⟨k, v⟩) } idx =
              Slot.occ ⟨k, v⟩ := lh_getD_set_self ht.entries idx _ hlt
          simp only [searchWalk]
          rw [hnew]
          simp
      · simp only [hk, if_false] at h
        have hidx2 : probe k ht.capacity i < ht.capacity := hpr k _ i hcap
        obtain ⟨j, hj, hc, hb, he, hbr, hrt⟩ := ih ht _ (i + 1) ht' hlen hcap hidx2 h
        have hne : idx ≠ j := by
          intro hij
          subst hij
          rcases hbr with ⟨e1, h1, h2, _, _⟩ | ⟨h1 | h1, _, _⟩
          · rw [hs] at h1
            exact hk ((Slot.occ.inj h1 ▸ rfl : e0.key = e1.key).trans h2)
          · rw [hs] at h1; simp at h1
          · rw [hs] at h1; simp at h1
        refine ⟨j, hj, hc, hb, he, ?_, ?_⟩
        · rcases hbr with ⟨e1, h1, h2, h3, h4⟩ | ⟨h1, h2, h3⟩
          · refine Or.inl ⟨e1, h1, h2, h3, ?_⟩
            simp only [searchWalk]
            rw [hs]
            simp only [hk, if_false]
            exact h4
          · refine Or.inr ⟨h1, h2, ?_⟩
            simp only [searchWalk]
            rw [hs]
            simp only [hk, if_false]
            exact h3
        · have hsame : slotAt ht' idx = slotAt ht idx := by
            simp only [slotAt, he]
            exact lh_getD_set_ne ht.entries j idx _ hne
          simp only [searchWalk]
          rw [hsame, hs]
          simp only [hk, if_false]
          rw [hc]
          exact hrt
    | empty =>
      rw [hs] at h
      obtain rfl := Option.some.inj h
      refine ⟨idx, hidx, rfl, rfl, rfl, Or.inr ⟨Or.inl hs, rfl, ?_⟩, ?_⟩
      · simp only [searchWalk]
        rw [hs]
      · have hnew : slotAt
            { ht with entries := ht.entries.set idx (Slot.occ ⟨k, v⟩)
                      count := ht.count + 1 } idx =
            Slot.occ ⟨k, v⟩ := lh_getD_set_self ht.entries idx _ hlt
        simp only [searchWalk]
        rw [hnew]
        simp
    | tomb =>
      rw [hs] at h
      obtain rfl := Option.some.inj h
      refine ⟨idx, hidx, rfl, rfl, rfl, Or.inr ⟨Or.inr hs, rfl, ?_⟩, ?_⟩
      · simp only [searchWalk]
        rw [hs]
      · have hnew : slotAt
            { ht with entries := ht.entries.set idx (Slot.occ ⟨k, v⟩)
                      count := ht.count + 1 } idx =
            Slot.occ ⟨k, v⟩ := lh_getD_set_self ht.entries idx _ hlt
        simp only [searchWalk]
        rw [hnew]
        simp

theorem lh_mem_getD : ∀ (l : List Slot) (a : Slot),
    a ∈ l → ∃ p, p < l.length ∧ l.getD p Slot.empty = a := by
  intro l
  induction l with
  | nil => intro a h; simp at h
  | cons x xs ih =>
    intro a h
    rcases List.mem_cons.mp h with h | h
    · exact ⟨0, by simp, by simp [List.getD, h]⟩
    · obtain ⟨p, hp, hg⟩ := ih a h
      exact ⟨p + 1, by simpa using Nat.succ_lt_succ hp, by simpa [List.getD] using hg⟩

theorem searchWalk_congr (probe : String → Nat → Nat → Nat)
    (a b : hash_table) (hcap : a.capacity = b.capacity) (hent : a.entries = b.entries) :
    ∀ (f : Nat) (k : String) (idx i : Nat),
    searchWalk probe f a k idx i = searchWalk probe f b k idx i := by
  intro f
  induction f with
  | zero => intro k idx i; rfl
  | succ f ih =>
    intro k idx i
    simp only [searchWalk, slotAt, hent, hcap]
    cases (b.entries.getD idx Slot.empty) with
    | occ e =>
      by_cases hk : e.key = k
      · simp [hk]
      · simp only [hk, if_false]
        exact ih k _ _
    | empty => rfl
    | tomb => rfl

theorem ht_search_congr (probe : String → Nat → Nat → Nat)
    (a b : hash_table) (hcap : a.capacity = b.capacity) (hent : a.entries = b.entries)
    (f : Nat) (k : String) :
    ht_search probe f a k = ht_search probe f b k := by
  simp only [ht_search, hcap]
  exact searchWalk_congr probe a b hcap hent f k _ 1

theorem ht_init_len (n : Nat) : (ht_init n).entries.length = (ht_init n).capacity := by
  simp [ht_init]

theorem ht_init_cap_pos (n : Nat) : 0 < (ht_init n).capacity := by
  simp only [ht_init]
  exact next_prime_pos _

theorem ht_init_occKeys (n : Nat) : occKeys (ht_init n) = [] := by
  simp only [occKeys, ht_init]
  exact occKeysL_replicate_empty _

theorem ht_init_no_occ (n : Nat) (e : ht_entry) : Slot.occ e ∉ (ht_init n).entries := by
  simp only [ht_init]
  exact occ_not_mem_replicate _ e

theorem ht_init_INV (probe : String → Nat → Nat → Nat) (n : Nat) :
    INV probe (ht_init n) := by
  refine ⟨ht_init_len n, ht_init_cap_pos n, ?_, ?_, ?_⟩
  · rw [ht_init_occKeys]; exact List.nodup_nil
  · rw [ht_init_occKeys]; rfl
  · intro e he
    exact absurd he (ht_init_no_occ n e)

theorem ht_init_NoTomb (n : Nat) : NoTomb (ht_init n) := by
  intro h
  have h2 : Slot.tomb ∈ List.replicate
      (next_prime (if n = 0 then HT_DEFAULT_CAPACITY else n)) Slot.empty := h
  have := List.eq_of_mem_replicate h2
  simp at this

theorem insertStep_post (probe : String → Nat → Nat → Nat) (hpr : ProbeOk probe)
    (g : Nat) (ht2 : hash_table) (k : String) (v : Nat) (ht' : hash_table)
    (hinv2 : INV probe ht2)
    (h : insertWalk probe g ht2 k v (probe k ht2.capacity 0) 1 = some ht') :
    InsertPost probe ht2 k v ht' := by
  obtain ⟨hlen, hcap, hnd, hcnt, hreach⟩ := hinv2
  have hidx0 : probe k ht2.capacity 0 < ht2.capacity := hpr k _ 0 hcap
  obtain ⟨j, hj, hc, hb, he, hbr, hrt⟩ :=
    insertWalk_post probe hpr k v g ht2 _ 1 ht' hlen hcap hidx0 h
  have hjlen : j < ht2.entries.length := by rw [hlen]; exact hj
  have found_new : Found probe ht' k v := by
    refine ⟨g, ?_⟩
    simp only [ht_search, hc]
    exact hrt
  have len' : ht'.entries.length = ht'.capacity := by
    rw [he, hc, List.length_set]
    exact hlen
  have cappos' : 0 < ht'.capacity := by rw [hc]; exact hcap
  have memht' : ∀ e1 : ht_entry, Slot.occ e1 ∈ ht'.entries →
      e1 = ⟨k, v⟩ ∨ (Slot.occ e1 ∈ ht2.entries ∧
        ∃ p, p ≠ j ∧ ht2.entries.getD p Slot.empty = Slot.occ e1) := by
    intro e1 h1
    rw [he] at h1
    obtain ⟨p, hp, hg⟩ := lh_mem_getD _ _ h1
    by_cases hpj : p = j
    · subst hpj
      rw [lh_getD_set_self ht2.entries p _ hjlen] at hg
      exact Or.inl (Slot.occ.inj hg).symm
    · rw [lh_getD_set_ne ht2.entries j p _ hpj] at hg
      exact Or.inr ⟨lh_getD_occ_mem _ _ _ hg, p, hpj, hg⟩
  have hnotomb : NoTomb ht2 → NoTomb ht' := by
    intro hnt hmem
    rw [he] at hmem
    rcases lh_mem_set _ _ _ _ hmem with hmem | hmem
    · exact hnt hmem
    · simp at hmem
  have hmemnew : Slot.occ ⟨k, v⟩ ∈ ht'.entries := by
    rw [he]
    exact lh_mem_set_self _ _ _ hjlen
  rcases hbr with ⟨e0, hsj, hk0, hcnt', hsfound⟩ | ⟨hor, hcnt', hsnone⟩
  · -- overwrite of the matching entry at slot j
    have hsjD : ht2.entries.getD j Slot.empty = Slot.occ e0 := hsj
    have hkin : k ∈ occKeys ht2 := by
      have := occ_key_mem_occKeysL ht2.entries e0 (lh_getD_occ_mem _ _ _ hsjD)
      rwa [hk0] at this
    have keyeq : occKeys ht' = occKeys ht2 := by
      simp only [occKeys, he]
      refine occKeysL_set_congr ht2.entries j _ ?_
      rw [hsjD]
      simp [slotKey, hk0]
    have reach' : ∀ e1 : ht_entry, Slot.occ e1 ∈ ht'.entries →
        Found probe ht' e1.key e1.value := by
      intro e1 h1
      rcases memht' e1 h1 with rfl | ⟨hmem2, p, hpj, hg⟩
      · exact found_new
      · have hne1 : e1.key ≠ k := by
          intro hkeq
          exact hpj (nodup_occ_getD ht2.entries hnd p j e1 e0 hg hsjD (hkeq.trans hk0.symm))
        obtain ⟨fs, hfs⟩ := hreach e1 hmem2
        refine ⟨fs, ?_⟩
        rw [ht_search_congr probe ht'
          { ht2 with entries := ht2.entries.set j (Slot.occ ⟨k, v⟩), count := ht'.count }
          hc he fs e1.key]
        refine searchWalk_set_preserve probe e1.key j ⟨k, v⟩
          (fun hh => hne1 hh.symm) ht'.count fs ht2 _ 1 e1 ?_ hfs
        exact Or.inr (Or.inr ⟨e0, hsj, fun hh => hne1 (hh ▸ hk0)⟩)
    refine ⟨⟨len', cappos', keyeq ▸ hnd, ?_, reach'⟩, hnotomb, ?_, hmemnew, ?_⟩
    · rw [keyeq, hcnt', hcnt]
    · intro e1 hne1
      constructor
      · intro h1
        rcases memht' e1 h1 with rfl | ⟨hmem2, _⟩
        · exact absurd rfl hne1
        · exact hmem2
      · intro h1
        rw [he]
        refine lh_mem_set_of_ne_getD ht2.entries j _ _ h1 ?_
        rw [hsjD]
        intro hh
        exact hne1 ((Slot.occ.inj hh ▸ rfl : e0.key = e1.key) ▸ hk0)
    · rw [if_pos hkin, hcnt']
      ring
  · -- fresh install into an empty or sentinel slot j
    have hsnone2 : ht_search probe g ht2 k = some none := hsnone
    have hknotin : k ∉ occKeys ht2 := by
      intro hmem
      obtain ⟨v0, hv0⟩ := (mem_occKeysL _ k).mp hmem
      exact found_not_notfound probe ht2 k v0 g (hreach ⟨k, v0⟩ hv0) hsnone2
    have hslotnone : slotKey (ht2.entries.getD j Slot.empty) = none := by
      rcases hor with hor | hor
      · rw [show ht2.entries.getD j Slot.empty = Slot.empty from hor]; rfl
      · rw [show ht2.entries.getD j Slot.empty = Slot.tomb from hor]; rfl
    have perm : (occKeys ht').Perm (k :: occKeys ht2) := by
      simp only [occKeys, he]
      exact occKeysL_set_fresh ht2.entries j ⟨k, v⟩ hjlen hslotnone
    have reach' : ∀ e1 : ht_entry, Slot.occ e1 ∈ ht'.entries →
        Found probe ht' e1.key e1.value := by
      intro e1 h1
      rcases memht' e1 h1 with rfl | ⟨hmem2, p, hpj, hg⟩
      · exact found_new
      · have hne1 : e1.key ≠ k := by
          intro hkeq
          exact hknotin (hkeq ▸ occ_key_mem_occKeysL ht2.entries e1 hmem2)
        obtain ⟨fs, hfs⟩ := hreach e1 hmem2
        refine ⟨fs, ?_⟩
        rw [ht_search_congr probe ht'
          { ht2 with entries := ht2.entries.set j (Slot.occ ⟨k, v⟩), count := ht'.count }
          hc he fs e1.key]
        refine searchWalk_set_preserve probe e1.key j ⟨k, v⟩
          (fun hh => hne1 hh.symm) ht'.count fs ht2 _ 1 e1 ?_ hfs
        rcases hor with hor | hor
        · exact Or.inl hor
        · exact Or.inr (Or.inl hor)
    have nodup' : (occKeys ht').Nodup := by
      rw [perm.nodup_iff]
      exact List.nodup_cons.mpr ⟨hknotin, hnd⟩
    refine ⟨⟨len', cappos', nodup', ?_, reach'⟩, hnotomb, ?_, hmemnew, ?_⟩
    · rw [hcnt', hcnt, perm.length_eq]
      simp only [List.length_cons]
      push_cast
      ring
    · intro e1 hne1
      constructor
      · intro h1
        rcases memht' e1 h1 with rfl | ⟨hmem2, _⟩
        · exact absurd rfl hne1
        · exact hmem2
      · intro h1
        rw [he]
        refine lh_mem_set_of_ne_getD ht2.entries j _ _ h1 ?_
        rcases hor with hor | hor
        · rw [show ht2.entries.getD j Slot.empty = Slot.empty from hor]; simp
        · rw [show ht2.entries.getD j Slot.empty = Slot.tomb from hor]; simp
    · rw [if_neg hknotin, hcnt']

theorem fold_reinsert_post (probe : String → Nat → Nat → Nat) (fuel : Nat)
    (IH : ∀ (ht : hash_table) (k : String) (v : Nat) (ht' : hash_table),
      INV probe ht → insertGo probe fuel ht k v = some ht' → InsertPost probe ht k v ht') :
    ∀ (L : List Slot) (acc ht2 : hash_table),
    INV probe acc → NoTomb acc →
    (occKeysL L).Nodup →
    (∀ s, s ∈ occKeysL L → s ∉ occKeys acc) →
    L.foldlM (reinsert_step (insertGo probe fuel)) acc = some ht2 →
    INV probe ht2 ∧ NoTomb ht2 ∧
    (∀ e : ht_entry, Slot.occ e ∈ ht2.entries ↔ (Slot.occ e ∈ acc.entries ∨ Slot.occ e ∈ L)) ∧
    ht2.count = acc.count + ((occKeysL L).length : Int) := by
  intro L
  induction L with
  | nil =>
    intro acc ht2 hinv hnt _ _ h
    simp only [List.foldlM_nil] at h
    obtain rfl : acc = ht2 := by simpa using h
    refine ⟨hinv, hnt, ?_, by simp [occKeysL]⟩
    intro e
    simp
  | cons s L ih =>
    intro acc ht2 hinv hnt hnodup hdisj h
    simp only [List.foldlM_cons] at h
    cases s with
    | empty =>
      simp only [reinsert_step, Option.some_bind] at h
      have hkeys : occKeysL (Slot.empty :: L) = occKeysL L := by
        simp [occKeysL, List.filterMap_cons, slotKey]
      rw [hkeys] at hnodup hdisj
      obtain ⟨h1, h2, h3, h4⟩ := ih acc ht2 hinv hnt hnodup hdisj h
      refine ⟨h1, h2, ?_, by rw [h4, hkeys]⟩
      intro e
      rw [h3 e]
      simp [List.mem_cons]
    | tomb =>
      simp only [reinsert_step, Option.some_bind] at h
      have hkeys : occKeysL (Slot.tomb :: L) = occKeysL L := by
        simp [occKeysL, List.filterMap_cons, slotKey]
      rw [hkeys] at hnodup hdisj
      obtain ⟨h1, h2, h3, h4⟩ := ih acc ht2 hinv hnt hnodup hdisj h
      refine ⟨h1, h2, ?_, by rw [h4, hkeys]⟩
      intro e
      rw [h3 e]
      simp [List.mem_cons]
    | occ e =>
      simp only [reinsert_step] at h
      cases hstep : insertGo probe fuel acc e.key e.value with
      | none => rw [hstep] at h; simp at h
      | some acc2 =>
        rw [hstep] at h
        simp only [Option.bind_eq_bind, Option.some_bind] at h
        obtain ⟨hinv2, hnt2, hmemiff, hmemnew, hcount2⟩ := IH acc e.key e.value acc2 hinv hstep
        have hkeys : occKeysL (Slot.occ e :: L) = e.key :: occKeysL L := by
          simp [occKeysL, List.filterMap_cons, slotKey]
        rw [hkeys] at hnodup hdisj
        have hndL := (List.nodup_cons.mp hnodup).2
        have hheadL : e.key ∉ occKeysL L := (List.nodup_cons.mp hnodup).1
        have hheadacc : e.key ∉ occKeys acc := hdisj e.key (List.mem_cons_self _ _)
        have hcount2' : acc2.count = acc.count + 1 := by
          rw [hcount2, if_neg hheadacc]
        have memchar : ∀ e1 : ht_entry,
            Slot.occ e1 ∈ acc2.entries ↔ (Slot.occ e1 ∈ acc.entries ∨ e1 = e) := by
          intro e1
          by_cases hke1 : e1.key = e.key
          · constructor
            · intro h1
              have : e1 = e :=
                nodup_occ_unique acc2.entries hinv2.2.2.1 e1 e h1 hmemnew hke1
              exact Or.inr this
            · rintro (h1 | rfl)
              · exact absurd (hke1 ▸ occ_key_mem_occKeysL acc.entries e1 h1) hheadacc
              · exact hmemnew
          · rw [hmemiff e1 hke1]
            constructor
            · exact Or.inl
            · rintro (h1 | rfl)
              · exact h1
              · exact absurd rfl hke1
        have occchar : ∀ s, s ∈ occKeys acc2 ↔ (s = e.key ∨ s ∈ occKeys acc) := by
          intro s
          constructor
          · intro hs
            obtain ⟨v0, hv0⟩ := (mem_occKeysL _ s).mp hs
            rcases (memchar ⟨s, v0⟩).mp hv0 with h1 | h1
            · exact Or.inr ((mem_occKeysL _ s).mpr ⟨v0, h1⟩)
            · exact Or.inl (congrArg ht_entry.key h1)
          · rintro (rfl | hs)
            · exact (mem_occKeysL _ _).mpr ⟨e.value, hmemnew⟩
            · obtain ⟨v0, hv0⟩ := (mem_occKeysL _ s).mp hs
              refine (mem_occKeysL _ s).mpr ⟨v0, (memchar ⟨s, v0⟩).mpr (Or.inl hv0)⟩
        have hdisj2 : ∀ s, s ∈ occKeysL L → s ∉ occKeys acc2 := by
          intro s hs hmem
          rcases (occchar s).mp hmem with rfl | hmem
          · exact hheadL hs
          · exact hdisj s (List.mem_cons_of_mem _ hs) hmem
        obtain ⟨h1, h2, h3, h4⟩ := ih acc2 ht2 hinv2 (hnt2 hnt) hndL hdisj2 h
        refine ⟨h1, h2, ?_, ?_⟩
        · intro e1
          rw [h3 e1, memchar e1]
          simp only [List.mem_cons, Slot.occ.injEq]
          tauto
        · rw [h4, hcount2', hkeys]
          simp only [List.length_cons]
          push_cast
          ring

theorem ht_resize_post (probe : String → Nat → Nat → Nat) (fuel : Nat)
    (IH : ∀ (ht : hash_table) (k : String) (v : Nat) (ht' : hash_table),
      INV probe ht → insertGo probe fuel ht k v = some ht' → InsertPost probe ht k v ht') :
    ∀ (ht : hash_table) (base : Int) (ht2 : hash_table),
    INV probe ht → 0 ≤ base →
    ht_resize (insertGo probe fuel) ht base = some ht2 →
    INV probe ht2 ∧ NoTomb ht2 ∧
    (∀ e : ht_entry, Slot.occ e ∈ ht2.entries ↔ Slot.occ e ∈ ht.entries) ∧
    ht2.count = ht.count := by
  intro ht base ht2 hinv hb h
  rw [ht_resize, if_neg (by omega : ¬ base < 0)] at h
  have hdisj : ∀ s, s ∈ occKeysL ht.entries → s ∉ occKeys (ht_init base.toNat) := by
    intro s _
    rw [ht_init_occKeys]
    simp
  obtain ⟨h1, h2, h3, h4⟩ := fold_reinsert_post probe fuel IH ht.entries
    (ht_init base.toNat) ht2 (ht_init_INV probe _) (ht_init_NoTomb _) hinv.2.2.1 hdisj h
  refine ⟨h1, h2, ?_, ?_⟩
  · intro e
    rw [h3 e]
    constructor
    · rintro (hmem | hmem)
      · exact absurd hmem (ht_init_no_occ _ e)
      · exact hmem
    · exact Or.inr
  · rw [h4]
    have : (ht_init base.toNat).count = 0 := rfl
    rw [this, hinv.2.2.2.1]
    simp [occKeys]

theorem insertGo_spec (probe : String → Nat → Nat → Nat) (hpr : ProbeOk probe) :
    ∀ (fuel : Nat) (ht : hash_table) (k : String) (v : Nat) (ht' : hash_table),
    INV probe ht → insertGo probe fuel ht k v = some ht' → InsertPost probe ht k v ht' := by
  intro fuel
  induction fuel with
  | zero => intro ht k v ht' _ h; simp [insertGo] at h
  | succ f ih =>
    intro ht k v ht' hinv h
    simp only [insertGo] at h
    by_cases hl : ht.count * 100 / (ht.capacity : Int) > 70
    · rw [if_pos hl] at h
      cases hr : ht_resize_up (insertGo probe f) ht with
      | none => rw [hr] at h; simp at h
      | some htR =>
        rw [hr] at h
        rw [ht_resize_up] at hr
        obtain ⟨hinvR, hntR, hmemR, hcntR⟩ :=
          ht_resize_post probe f ih ht _ htR hinv (by positivity) hr
        obtain ⟨hinv', hnt', hmem', hmemnew', hcnt'⟩ :=
          insertStep_post probe hpr (f + 1) htR k v ht' hinvR h
        refine ⟨hinv', fun _ => hnt' hntR, ?_, hmemnew', ?_⟩
        · intro e1 hne1
          exact (hmem' e1 hne1).trans (hmemR e1)
        · rw [hcnt', hcntR]
          have hiff : (k ∈ occKeys htR) ↔ (k ∈ occKeys ht) := by
            simp only [occKeys]
            rw [mem_occKeysL, mem_occKeysL]
            exact exists_congr fun v0 => hmemR ⟨k, v0⟩
          by_cases hk : k ∈ occKeys ht
          · rw [if_pos hk, if_pos (hiff.mpr hk)]
          · rw [if_neg hk, if_neg (fun hh => hk (hiff.mp hh))]
    · rw [if_neg hl] at h
      exact insertStep_post probe hpr (f + 1) ht k v ht' hinv h

/-- The contract of `ht_resize` on a table satisfying the data-model
invariants: the invariants still hold, no slot of the rebuilt table is a
tombstone, exactly the same entries occupy the table, and `count` is
unchanged. -/
theorem ht_resize_spec (probe : String → Nat → Nat → Nat) (hpr : ProbeOk probe)
    (fuel : Nat) (ht : hash_table) (base : Int) (ht2 : hash_table)
    (hinv : INV probe ht) (hb : 0 ≤ base)
    (h : ht_resize (insertGo probe fuel) ht base = some ht2) :
    INV probe ht2 ∧ NoTomb ht2 ∧
    (∀ e : ht_entry, Slot.occ e ∈ ht2.entries ↔ Slot.occ e ∈ ht.entries) ∧
    ht2.count = ht.count :=
  ht_resize_post probe fuel (insertGo_spec probe hpr fuel) ht base ht2 hinv hb h

theorem lh_getD_replicate (n i : Nat) :
    (List.replicate n Slot.empty).getD i Slot.empty = Slot.empty := by
  induction n generalizing i with
  | zero => cases i <;> rfl
  | succ n ih =>
    cases i with
    | zero => rfl
    | succ i => simp only [List.replicate, List.getD_cons_succ]; exact ih i

theorem fold_no_occ (ins : hash_table → String → Nat → Option hash_table) :
    ∀ (L : List Slot) (acc : hash_table),
    (∀ e : ht_entry, Slot.occ e ∉ L) →
    L.foldlM (reinsert_step ins) acc = some acc := by
  intro L
  induction L with
  | nil => intro acc _; rfl
  | cons s L ih =>
    intro acc hno
    cases s with
    | occ e => exact absurd (List.mem_cons_self _ _) (hno e)
    | empty =>
      simp only [List.foldlM_cons, reinsert_step, Option.bind_eq_bind, Option.some_bind]
      exact ih acc (fun e he => hno e (List.mem_cons_of_mem _ he))
    | tomb =>
      simp only [List.foldlM_cons, reinsert_step, Option.bind_eq_bind, Option.some_bind]
      exact ih acc (fun e he => hno e (List.mem_cons_of_mem _ he))

/-- Well-formedness used by the round-trip theorem: the slot array has the
advertised length and the table is non-empty.  (No further invariant is
needed for the insert/search round trip.) -/
def WF (ht : hash_table) : Prop :=
  ht.entries.length = ht.capacity ∧ 0 < ht.capacity

theorem fold_wf (probe : String → Nat → Nat → Nat) (fuel : Nat)
    (IH : ∀ (ht : hash_table) (k : String) (v : Nat) (ht' : hash_table),
      WF ht → insertGo probe fuel ht k v = some ht' → WF ht') :
    ∀ (L : List Slot) (acc ht2 : hash_table),
    WF acc → L.foldlM (reinsert_step (insertGo probe fuel)) acc = some ht2 → WF ht2 := by
  intro L
  induction L with
  | nil =>
    intro acc ht2 hwf h
    simp only [List.foldlM_nil] at h
    obtain rfl : acc = ht2 := by simpa using h
    exact hwf
  | cons s L ih =>
    intro acc ht2 hwf h
    simp only [List.foldlM_cons] at h
    cases s with
    | empty =>
      simp only [reinsert_step, Option.bind_eq_bind, Option.some_bind] at h
      exact ih acc ht2 hwf h
    | tomb =>
      simp only [reinsert_step, Option.bind_eq_bind, Option.some_bind] at h
      exact ih acc ht2 hwf h
    | occ e =>
      simp only [reinsert_step] at h
      cases hstep : insertGo probe fuel acc e.key e.value with
      | none => rw [hstep] at h; simp at h
      | some acc2 =>
        rw [hstep] at h
        simp only [Option.bind_eq_bind, Option.some_bind] at h
        exact ih acc2 ht2 (IH acc e.key e.value acc2 hwf hstep) h

theorem ht_init_WF (n : Nat) : WF (ht_init n) := ⟨ht_init_len n, ht_init_cap_pos n⟩

theorem insertGo_wf (probe : String → Nat → Nat → Nat) (hpr : ProbeOk probe) :
    ∀ (fuel : Nat) (ht : hash_table) (k : String) (v : Nat) (ht' : hash_table),
    WF ht → insertGo probe fuel ht k v = some ht' → WF ht' := by
  intro fuel
  induction fuel with
  | zero => intro ht k v ht' _ h; simp [insertGo] at h
  | succ f ih =>
    intro ht k v ht' hwf h
    simp only [insertGo] at h
    have hstep : ∀ ht2 : hash_table, WF ht2 →
        insertWalk probe (f + 1) ht2 k v (probe k ht2.capacity 0) 1 = some ht' → WF ht' := by
      intro ht2 hwf2 hw
      obtain ⟨j, _, hc, _, he, _, _⟩ := insertWalk_post probe hpr k v (f + 1) ht2 _ 1 ht'
        hwf2.1 hwf2.2 (hpr k _ 0 hwf2.2) hw
      constructor
      · rw [he, hc, List.length_set]
        exact hwf2.1
      · rw [hc]
        exact hwf2.2
    by_cases hl : ht.count * 100 / (ht.capacity : Int) > 70
    · rw [if_pos hl] at h
      cases hr : ht_resize_up (insertGo probe f) ht with
      | none => rw [hr] at h; simp at h
      | some htR =>
        rw [hr] at h
        rw [ht_resize_up, ht_resize, if_neg (by omega : ¬ (ht.base_capacity : Int) * 2 < 0)] at hr
        exact hstep htR (fold_wf probe f ih ht.entries _ htR (ht_init_WF _) hr) h
    · rw [if_neg hl] at h
      exact hstep ht hwf h

/-- Inserting and then searching the same key with the same iteration budget
returns the entry just written: the search loop retraces exactly the probe
path the insert loop walked. -/
theorem ht_insert_roundtrip (probe : String → Nat → Nat → Nat) (hpr : ProbeOk probe)
    (fuel : Nat) (ht : hash_table) (k : String) (v : Nat) (ht' : hash_table)
    (hwf : WF ht) (hins : ht_insert probe fuel ht k v = some ht') :
    ht_search probe fuel ht' k = some (some ⟨k, v⟩) := by
  cases fuel with
  | zero => simp [ht_insert, insertGo] at hins
  | succ f =>
    simp only [ht_insert, insertGo] at hins
    have hstep : ∀ ht2 : hash_table, WF ht2 →
        insertWalk probe (f + 1) ht2 k v (probe k ht2.capacity 0) 1 = some ht' →
        ht_search probe (f + 1) ht' k = some (some ⟨k, v⟩) := by
      intro ht2 hwf2 hw
      obtain ⟨j, _, hc, _, _, _, hrt⟩ := insertWalk_post probe hpr k v (f + 1) ht2 _ 1 ht'
        hwf2.1 hwf2.2 (hpr k _ 0 hwf2.2) hw
      simp only [ht_search, hc]
      exact hrt
    by_cases hl : ht.count * 100 / (ht.capacity : Int) > 70
    · rw [if_pos hl] at hins
      cases hr : ht_resize_up (insertGo probe f) ht with
      | none => rw [hr] at hins; simp at hins
      | some htR =>
        rw [hr] at hins
        rw [ht_resize_up, ht_resize, if_neg (by omega : ¬ (ht.base_capacity : Int) * 2 < 0)] at hr
        exact hstep htR
          (fold_wf probe f (insertGo_wf probe hpr f) ht.entries _ htR (ht_init_WF _) hr) hins
    · rw [if_neg hl] at hins
      exact hstep ht hwf hins

theorem deleteGo_step (probe : String → Nat → Nat → Nat) (hpr : ProbeOk probe)
    (fd : Nat) (ht1 : hash_table) (k : String) (p : Nat × hash_table)
    (hinv1 : INV probe ht1)
    (hdel : deleteGo probe (fd + 1) ht1 k = some p) :
    ∃ htr : hash_table, INV probe htr ∧
      (∀ e : ht_entry, Slot.occ e ∈ htr.entries ↔ Slot.occ e ∈ ht1.entries) ∧
      htr.count = ht1.count ∧
      deleteWalk probe (fd + 1) htr k (probe k htr.capacity 0) 0 = some p := by
  simp only [deleteGo] at hdel
  by_cases hl : ht1.count * 100 / (ht1.capacity : Int) < 10
  · rw [if_pos hl] at hdel
    cases hrr : ht_resize_down (insertGo probe fd) ht1 with
    | none => rw [hrr] at hdel; simp at hdel
    | some htr =>
      rw [hrr] at hdel
      rw [ht_resize_down] at hrr
      have hnn : 0 ≤ (ht1.base_capacity : Int) / 2 := by positivity
      obtain ⟨hinvr, _, hmemr, hcntr⟩ :=
        ht_resize_spec probe hpr fd ht1 _ htr hinv1 hnn hrr
      exact ⟨htr, hinvr, hmemr, hcntr, hdel⟩
  · rw [if_neg hl] at hdel
    exact ⟨ht1, hinv1, fun e => Iff.rfl, rfl, hdel⟩

/-! ### Claim theorems -/

/-- C1 (code bug): the spec says a tombstone left by delete is skipped by
search, so that after Insert(k1,v1); Insert(k2,v2); Delete(k1) with k1, k2
colliding on their initial probe slot, Search(k2) still finds k2.  In the code
the search loop condition `current_entry != &HT_SENTINEL_ENTRY` stops at the
sentinel, so the search returns NULL: with every key probing slot 0 first,
inserting k1 then k2, deleting k1 and searching k2 yields not-found. -/
theorem C1_tombstone_terminates_search :
    probe0 "k1" 5 0 = probe0 "k2" 5 0 ∧
    (do
      let t1 ← ht_insert probe0 5 (ht_init 4) "k1" 1
      let t2 ← ht_insert probe0 5 t1 "k2" 2
      let p ← ht_delete probe0 5 t2 "k1"
      ht_search probe0 5 p.2 "k2") = some none := by
  exact ⟨rfl, rfl⟩

/-- C2 (code bug): the spec says insert scans the full probe chain for a
matching key before settling on a slot, so a matching Occupied slot is
overwritten in preference to an earlier tombstone.  In the code the insert
loop also stops at the sentinel: re-inserting k2 after the scenario of C1
installs a second entry for k2 into the tombstone at slot 0, leaves the old
k2 entry at slot 1, and increments `count` to 2. -/
theorem C2_insert_installs_into_tombstone :
    (do
      let t1 ← ht_insert probe0 5 (ht_init 4) "k1" 1
      let t2 ← ht_insert probe0 5 t1 "k2" 2
      let p ← ht_delete probe0 5 t2 "k1"
      ht_insert probe0 5 p.2 "k2" 9) =
    some ⟨5, 4, 2, [Slot.occ ⟨"k2", 9⟩, Slot.occ ⟨"k2", 2⟩,
      Slot.empty, Slot.empty, Slot.empty]⟩ := by
  rfl

/-- C3 (code bug): the spec's invariant says no two Occupied slots hold the
same key and the number of distinct Occupied keys equals `count`.  After the
Create/Insert/Insert/Delete/Insert sequence of C2, two Occupied slots both
hold "k2" and `count` is 2 while there is a single distinct key. -/
theorem C3_duplicate_keys_after_ops :
    ((do
      let t1 ← ht_insert probe0 5 (ht_init 4) "k1" 1
      let t2 ← ht_insert probe0 5 t1 "k2" 2
      let p ← ht_delete probe0 5 t2 "k1"
      ht_insert probe0 5 p.2 "k2" 9).map (fun t => (occKeys t, t.count))) =
      some (["k2", "k2"], (2 : Int)) ∧
    ¬ (["k2", "k2"] : List String).Nodup ∧
    (["k2", "k2"] : List String).dedup.length = 1 := by
  refine ⟨by decide, by decide, by decide⟩

/-- C4 (confirmed): for every well-formed table, every key and value, if
Insert(k, v) terminates then Get(k) on the resulting table returns v: the
search loop retraces the probe path walked by the insert loop and stops at
the slot the insert wrote. -/
theorem C4_insert_get_roundtrip (probe : String → Nat → Nat → Nat) (hpr : ProbeOk probe)
    (fuel : Nat) (ht : hash_table) (k : String) (v : Nat) (ht' : hash_table)
    (hwf : WF ht) (hins : ht_insert probe fuel ht k v = some ht') :
    ht_get probe fuel ht' k = some (some v) := by
  have hs := ht_insert_roundtrip probe hpr fuel ht k v ht' hwf hins
  simp only [ht_get, hs]
  rfl

/-- Witness for C4 at a concrete input: inserting "aa" ↦ 7 into a fresh
Create(4) table and reading it back. -/
theorem C4_insert_get_roundtrip_witness :
    ProbeOk probe0 ∧ WF (ht_init 4) ∧
    ht_insert probe0 5 (ht_init 4) "aa" 7 =
      some ⟨5, 4, 1, [Slot.occ ⟨"aa", 7⟩, Slot.empty, Slot.empty, Slot.empty, Slot.empty]⟩ ∧
    ht_get probe0 5
      (⟨5, 4, 1, [Slot.occ ⟨"aa", 7⟩, Slot.empty, Slot.empty, Slot.empty, Slot.empty]⟩ :
        hash_table) "aa" = some (some 7) := by
  have hpr : ProbeOk probe0 := fun _ c i hc => Nat.mod_lt _ hc
  have hwf : WF (ht_init 4) := ⟨by decide, by decide⟩
  exact ⟨hpr, hwf, rfl,
    C4_insert_get_roundtrip probe0 hpr 5 (ht_init 4) "aa" 7 _ hwf rfl⟩

/-- C7 (confirmed, spec-modelled sizer and probe): Create(4) gives capacity 5
and base capacity 4; four inserts do not resize (capacity stays 5, count 4);
the fifth insert sees load 4·100/5 = 80 > 70, grows to base capacity 8 with
capacity 11 (the next prime), and all five keys remain retrievable. -/
theorem C7_grow_trigger_scenario :
    (ht_init 4).capacity = 5 ∧ (ht_init 4).base_capacity = 4 ∧
    ((do
      let t1 ← ht_insert probe0 10 (ht_init 4) "a" 1
      let t2 ← ht_insert probe0 10 t1 "b" 2
      let t3 ← ht_insert probe0 10 t2 "c" 3
      ht_insert probe0 10 t3 "d" 4).map
        (fun t : hash_table => (t.capacity, t.base_capacity, t.count))) = some (5, 4, (4 : Int)) ∧
    ((do
      let t1 ← ht_insert probe0 10 (ht_init 4) "a" 1
      let t2 ← ht_insert probe0 10 t1 "b" 2
      let t3 ← ht_insert probe0 10 t2 "c" 3
      let t4 ← ht_insert probe0 10 t3 "d" 4
      ht_insert probe0 10 t4 "e" 5).map
        (fun t : hash_table => (t.capacity, t.base_capacity, t.count))) = some (11, 8, (5 : Int)) ∧
    (do
      let t1 ← ht_insert probe0 10 (ht_init 4) "a" 1
      let t2 ← ht_insert probe0 10 t1 "b" 2
      let t3 ← ht_insert probe0 10 t2 "c" 3
      let t4 ← ht_insert probe0 10 t3 "d" 4
      let t5 ← ht_insert probe0 10 t4 "e" 5
      (do
        let r1 ← ht_search probe0 20 t5 "a"
        let r2 ← ht_search probe0 20 t5 "b"
        let r3 ← ht_search probe0 20 t5 "c"
        let r4 ← ht_search probe0 20 t5 "d"
        let r5 ← ht_search probe0 20 t5 "e"
        some [r1, r2, r3, r4, r5] : Option (List (Option ht_entry)))) =
    some [some ⟨"a", 1⟩, some ⟨"b", 2⟩, some ⟨"c", 3⟩, some ⟨"d", 4⟩, some ⟨"e", 5⟩] := by
  exact ⟨rfl, rfl, by decide, by decide, by decide⟩

/-- C9 (confirmed): Get is total on absent keys — `ht_get` checks the search
result and returns NULL when it is NULL, so Get is absent exactly when Search
is not-found, with no precondition on the key being present. -/
theorem C9_get_absent_iff_search_notfound :
    ∀ (probe : String → Nat → Nat → Nat) (fuel : Nat) (ht : hash_table) (k : String),
    ht_get probe fuel ht k = some none ↔ ht_search probe fuel ht k = some none := by
  intro probe fuel ht k
  simp only [ht_get]
  cases h : ht_search probe fuel ht k with
  | none => simp
  | some r =>
    cases r with
    | none => simp
    | some e => simp

/-- C5 (confirmed): for every invariant-respecting table not containing k,
Insert(k, v) followed by Delete(k) returns the found-and-removed result 1 and
decrements `count` by exactly 1, after which Search/Get report not-found;
deleting a key absent from the table returns 0 and leaves `count` unchanged
(both statements conditional on the probe loops terminating, which is what
`= some _` expresses). -/
theorem C5_delete_spec (probe : String → Nat → Nat → Nat) (hpr : ProbeOk probe)
    (ht : hash_table) (k : String) (hinv : INV probe ht) (habs : k ∉ occKeys ht) :
    (∀ (f1 f2 : Nat) (v : Nat) (ht1 : hash_table) (r : Nat) (ht2 : hash_table),
      ht_insert probe f1 ht k v = some ht1 →
      ht_delete probe f2 ht1 k = some (r, ht2) →
      r = 1 ∧ ht2.count = ht1.count - 1 ∧
      ∃ f3, ht_search probe f3 ht2 k = some none ∧ ht_get probe f3 ht2 k = some none) ∧
    (∀ (f : Nat) (r : Nat) (ht2 : hash_table),
      ht_delete probe f ht k = some (r, ht2) →
      r = 0 ∧ ht2.count = ht.count) := by
  constructor
  · intro f1 f2 v ht1 r ht2 hins hdel
    obtain ⟨hinv1, _, _, hmem1, _⟩ := insertGo_spec probe hpr f1 ht k v ht1 hinv hins
    cases f2 with
    | zero => simp [ht_delete, deleteGo] at hdel
    | succ fd =>
      obtain ⟨htr, hinvr, hmemr, hcntr, hwalk⟩ :=
        deleteGo_step probe hpr fd ht1 k (r, ht2) hinv1 hdel
      have hmem_r : Slot.occ ⟨k, v⟩ ∈ htr.entries := (hmemr _).mpr hmem1
      obtain ⟨fs, hfs⟩ := hinvr.2.2.2.2 ⟨k, v⟩ hmem_r
      obtain ⟨hr1, j, hsj, hjlen, hp2⟩ :=
        searchWalk_deleteWalk probe k (fd + 1) fs htr _ 0 ⟨k, v⟩ (r, ht2) hfs hwalk
      have hsrch2 : ht_search probe fs ht2 k = some none := by
        have hw8 := searchWalk_tombed probe k j ⟨k, v⟩ (htr.count - 1) fs htr
          (probe k htr.capacity 0) 1 ⟨k, v⟩ hinvr.2.2.1 hsj rfl hfs
        rw [show ht2 = { htr with entries := htr.entries.set j Slot.tomb, count := htr.count - 1 } from hp2]
        exact hw8
      refine ⟨hr1, ?_, fs, hsrch2, ?_⟩
      · rw [show ht2 = { htr with entries := htr.entries.set j Slot.tomb, count := htr.count - 1 } from hp2]
        simp only
        rw [hcntr]
      · simp only [ht_get, hsrch2]
        rfl
  · intro f r ht2 hdel
    cases f with
    | zero => simp [ht_delete, deleteGo] at hdel
    | succ fd =>
      obtain ⟨htr, hinvr, hmemr, hcntr, hwalk⟩ :=
        deleteGo_step probe hpr fd ht k (r, ht2) hinv hdel
      have habsr : ∀ e : ht_entry, Slot.occ e ∈ htr.entries → e.key ≠ k := by
        intro e he hke
        apply habs
        rw [← hke]
        exact occ_key_mem_occKeysL ht.entries e ((hmemr e).mp he)
      have hres := deleteWalk_absent probe k (fd + 1) htr _ 0 (r, ht2) habsr hwalk
      have hr : r = 0 := congrArg Prod.fst hres
      have hht : ht2 = htr := congrArg Prod.snd hres
      exact ⟨hr, by rw [hht, hcntr]⟩

/-- Witness for C5 at a concrete input: a fresh Create(4) table, key "aa". -/
theorem C5_delete_spec_witness :
    ProbeOk probe0 ∧ INV probe0 (ht_init 4) ∧ "aa" ∉ occKeys (ht_init 4) ∧
    ((1 : Nat) = 1 ∧
      (⟨5, 4, 0, [Slot.tomb, Slot.empty, Slot.empty, Slot.empty, Slot.empty]⟩ :
          hash_table).count =
        (⟨5, 4, 1, [Slot.occ ⟨"aa", 7⟩, Slot.empty, Slot.empty, Slot.empty, Slot.empty]⟩ :
          hash_table).count - 1 ∧
      ∃ f3, ht_search probe0 f3
          (⟨5, 4, 0, [Slot.tomb, Slot.empty, Slot.empty, Slot.empty, Slot.empty]⟩ :
            hash_table) "aa" = some none ∧
        ht_get probe0 f3
          (⟨5, 4, 0, [Slot.tomb, Slot.empty, Slot.empty, Slot.empty, Slot.empty]⟩ :
            hash_table) "aa" = some none) ∧
    ((0 : Nat) = 0 ∧
      (⟨2, 2, 0, [Slot.empty, Slot.empty]⟩ : hash_table).count = (ht_init 4).count) := by
  have hpr : ProbeOk probe0 := fun _ c i hc => Nat.mod_lt _ hc
  have hinv := ht_init_INV probe0 4
  have habs : "aa" ∉ occKeys (ht_init 4) := by decide
  refine ⟨hpr, hinv, habs, ?_, ?_⟩
  · exact (C5_delete_spec probe0 hpr (ht_init 4) "aa" hinv habs).1 3 3 7 _ 1 _ rfl rfl
  · exact (C5_delete_spec probe0 hpr (ht_init 4) "aa" hinv habs).2 3 0 _ rfl

/-- C6 (confirmed): a resize — triggered by the grow threshold, the shrink
threshold, or called directly with a non-negative base capacity — preserves
`count` and keeps every previously retrievable key retrievable with the same
value, for every table satisfying the spec's data-model invariants. -/
theorem C6_resize_preserves_membership (probe : String → Nat → Nat → Nat)
    (hpr : ProbeOk probe) (fuel : Nat) (ht : hash_table) (base : Int) (ht2 : hash_table)
    (hinv : INV probe ht) (hb : 0 ≤ base)
    (hres : ht_resize (insertGo probe fuel) ht base = some ht2) :
    ht2.count = ht.count ∧
    ∀ (k : String) (v : Nat), Found probe ht k v → Found probe ht2 k v := by
  obtain ⟨hinv2, _, hmem, hcnt⟩ := ht_resize_spec probe hpr fuel ht base ht2 hinv hb hres
  refine ⟨hcnt, ?_⟩
  intro k v hf
  obtain ⟨fs, hfs⟩ := hf
  have hm := ht_search_found_mem probe fs ht k ⟨k, v⟩ hfs
  exact hinv2.2.2.2.2 ⟨k, v⟩ ((hmem ⟨k, v⟩).mpr hm.1)

/-- Witness for C6 at a concrete input: a one-entry table resized to base 8. -/
theorem C6_resize_preserves_membership_witness :
    ProbeOk probe0 ∧
    INV probe0 (⟨5, 4, 1, [Slot.occ ⟨"aa", 7⟩, Slot.empty, Slot.empty, Slot.empty,
      Slot.empty]⟩ : hash_table) ∧
    (0 : Int) ≤ 8 ∧
    ht_resize (insertGo probe0 5)
      (⟨5, 4, 1, [Slot.occ ⟨"aa", 7⟩, Slot.empty, Slot.empty, Slot.empty, Slot.empty]⟩ :
        hash_table) 8 =
      some ⟨11, 8, 1, [Slot.occ ⟨"aa", 7⟩, Slot.empty, Slot.empty, Slot.empty, Slot.empty,
        Slot.empty, Slot.empty, Slot.empty, Slot.empty, Slot.empty, Slot.empty]⟩ ∧
    ((⟨11, 8, 1, [Slot.occ ⟨"aa", 7⟩, Slot.empty, Slot.empty, Slot.empty, Slot.empty,
        Slot.empty, Slot.empty, Slot.empty, Slot.empty, Slot.empty, Slot.empty]⟩ :
        hash_table).count =
      (⟨5, 4, 1, [Slot.occ ⟨"aa", 7⟩, Slot.empty, Slot.empty, Slot.empty, Slot.empty]⟩ :
        hash_table).count ∧
      ∀ (k : String) (v : Nat),
        Found probe0 (⟨5, 4, 1, [Slot.occ ⟨"aa", 7⟩, Slot.empty, Slot.empty, Slot.empty,
          Slot.empty]⟩ : hash_table) k v →
        Found probe0 (⟨11, 8, 1, [Slot.occ ⟨"aa", 7⟩, Slot.empty, Slot.empty, Slot.empty,
          Slot.empty, Slot.empty, Slot.empty, Slot.empty, Slot.empty, Slot.empty,
          Slot.empty]⟩ : hash_table) k v) := by
  have hpr : ProbeOk probe0 := fun _ c i hc => Nat.mod_lt _ hc
  have hinv : INV probe0 (⟨5, 4, 1, [Slot.occ ⟨"aa", 7⟩, Slot.empty, Slot.empty,
      Slot.empty, Slot.empty]⟩ : hash_table) := by
    refine ⟨by decide, by decide, by decide, by decide, ?_⟩
    intro e he
    simp only [List.mem_cons, List.not_mem_nil, or_false] at he
    rcases he with he | he | he | he | he
    · obtain rfl : e = ⟨"aa", 7⟩ := Slot.occ.inj he
      exact ⟨1, rfl⟩
    · exact Slot.noConfusion he
    · exact Slot.noConfusion he
    · exact Slot.noConfusion he
    · exact Slot.noConfusion he
  refine ⟨hpr, hinv, by decide, rfl, ?_⟩
  exact C6_resize_preserves_membership probe0 hpr 5 _ 8 _ hinv (by decide) rfl

/-- C8 (confirmed): inserting the same key twice with two values leaves
`count` unchanged, the second value is the only entry for the key (the old
entry was released), Get returns the latest value, and — when the second
insert does not trigger a grow — the new entry sits exactly at the slot of
the old matching entry. -/
theorem C8_overwrite_spec (probe : String → Nat → Nat → Nat) (hpr : ProbeOk probe)
    (ht : hash_table) (k : String) (v1 v2 : Nat) (f1 f2 : Nat) (ht1 ht2 : hash_table)
    (hinv : INV probe ht) (_hneq : v1 ≠ v2)
    (h1 : ht_insert probe f1 ht k v1 = some ht1)
    (h2 : ht_insert probe f2 ht1 k v2 = some ht2) :
    ht2.count = ht1.count ∧
    Slot.occ ⟨k, v2⟩ ∈ ht2.entries ∧
    (∀ v', Slot.occ ⟨k, v'⟩ ∈ ht2.entries → v' = v2) ∧
    (∃ f3, ht_get probe f3 ht2 k = some (some v2)) ∧
    (¬ ht1.count * 100 / (ht1.capacity : Int) > 70 →
      ∃ j, slotAt ht1 j = Slot.occ ⟨k, v1⟩ ∧
        ht2 = { ht1 with entries := ht1.entries.set j (Slot.occ ⟨k, v2⟩) }) := by
  obtain ⟨hinv1, _, _, hmem1, _⟩ := insertGo_spec probe hpr f1 ht k v1 ht1 hinv h1
  obtain ⟨hinv2, _, _, hmem2, hcnt2⟩ := insertGo_spec probe hpr f2 ht1 k v2 ht2 hinv1 h2
  have hkin : k ∈ occKeys ht1 := (mem_occKeysL _ k).mpr ⟨v1, hmem1⟩
  refine ⟨?_, hmem2, ?_, ?_, ?_⟩
  · rw [hcnt2, if_pos hkin]
    ring
  · intro v' hv'
    have := nodup_occ_unique ht2.entries hinv2.2.2.1 ⟨k, v'⟩ ⟨k, v2⟩ hv' hmem2 rfl
    exact congrArg ht_entry.value this
  · obtain ⟨f3, hf3⟩ := hinv2.2.2.2.2 ⟨k, v2⟩ hmem2
    exact ⟨f3, by simp only [ht_get, hf3]; rfl⟩
  · intro hl
    cases f2 with
    | zero => simp [ht_insert, insertGo] at h2
    | succ fd =>
      simp only [ht_insert, insertGo] at h2
      rw [if_neg hl] at h2
      obtain ⟨j, hj, hc, hb', he, hbr, _⟩ := insertWalk_post probe hpr k v2 (fd + 1)
        ht1 _ 1 ht2 hinv1.1 hinv1.2.1 (hpr k _ 0 hinv1.2.1) h2
      rcases hbr with ⟨e0, hsj, hk0, hcnt', _⟩ | ⟨_, _, hsnone⟩
      · have he0 : e0 = ⟨k, v1⟩ := by
          refine nodup_occ_unique ht1.entries hinv1.2.2.1 e0 ⟨k, v1⟩ ?_ hmem1 hk0
          exact lh_getD_occ_mem _ _ _ hsj
        refine ⟨j, he0 ▸ hsj, ?_⟩
        obtain ⟨c2, b2, n2, l2⟩ := ht2
        simp only at hc hb' hcnt' he
        simp only [hash_table.mk.injEq]
        exact ⟨hc, hb', hcnt', he⟩
      · exfalso
        exact found_not_notfound probe ht1 k v1 (fd + 1)
          (hinv1.2.2.2.2 ⟨k, v1⟩ hmem1) hsnone

/-- Witness for C8 at a concrete input: "aa" ↦ 7 then "aa" ↦ 9 in a fresh
Create(4) table. -/
theorem C8_overwrite_spec_witness :
    ProbeOk probe0 ∧ INV probe0 (ht_init 4) ∧ (7 : Nat) ≠ 9 ∧
    ht_insert probe0 3 (ht_init 4) "aa" 7 =
      some ⟨5, 4, 1, [Slot.occ ⟨"aa", 7⟩, Slot.empty, Slot.empty, Slot.empty, Slot.empty]⟩ ∧
    ht_insert probe0 3
      (⟨5, 4, 1, [Slot.occ ⟨"aa", 7⟩, Slot.empty, Slot.empty, Slot.empty, Slot.empty]⟩ :
        hash_table) "aa" 9 =
      some ⟨5, 4, 1, [Slot.occ ⟨"aa", 9⟩, Slot.empty, Slot.empty, Slot.empty, Slot.empty]⟩ ∧
    ((⟨5, 4, 1, [Slot.occ ⟨"aa", 9⟩, Slot.empty, Slot.empty, Slot.empty, Slot.empty]⟩ :
        hash_table).count =
      (⟨5, 4, 1, [Slot.occ ⟨"aa", 7⟩, Slot.empty, Slot.empty, Slot.empty, Slot.empty]⟩ :
        hash_table).count ∧
      Slot.occ ⟨"aa", 9⟩ ∈
        (⟨5, 4, 1, [Slot.occ ⟨"aa", 9⟩, Slot.empty, Slot.empty, Slot.empty, Slot.empty]⟩ :
          hash_table).entries ∧
      ∃ f3, ht_get probe0 f3
        (⟨5, 4, 1, [Slot.occ ⟨"aa", 9⟩, Slot.empty, Slot.empty, Slot.empty, Slot.empty]⟩ :
          hash_table) "aa" = some (some 9)) := by
  have hpr : ProbeOk probe0 := fun _ c i hc => Nat.mod_lt _ hc
  have hinv := ht_init_INV probe0 4
  have hspec := C8_overwrite_spec probe0 hpr (ht_init 4) "aa" 7 9 3 3 _ _
    hinv (by decide) rfl rfl
  exact ⟨hpr, hinv, by decide, rfl, rfl, hspec.1, hspec.2.1, hspec.2.2.2.1⟩

/-- C10 (confirmed, spec-modelled sizer): on a table with base capacity 1
(capacity 2) whose delete triggers the shrink, the requested new base is
1 / 2 = 0, initialization treats 0 as the default, and the table comes back
with base capacity 50 and capacity 53 — the shrink enlarges the tiny table. -/
theorem C10_shrink_bottoms_out (probe : String → Nat → Nat → Nat)
    (fuel : Nat) (ht : hash_table) (k : String)
    (hinv : INV probe ht) (hbase : ht.base_capacity = 1) (hcap : ht.capacity = 2)
    (hload : ht.count * 100 / (ht.capacity : Int) < 10) :
    ht_delete probe (fuel + 1) ht k = some (0, ht_init 0) ∧
    (ht_init 0).base_capacity = 50 ∧ (ht_init 0).capacity = 53 := by
  have hcnt : ht.count = ((occKeys ht).length : Int) := hinv.2.2.2.1
  have hcount0 : (occKeys ht).length = 0 := by
    rw [hcap, hcnt] at hload
    omega
  have hkeys : occKeys ht = [] := List.length_eq_zero.mp hcount0
  have hnoocc : ∀ e : ht_entry, Slot.occ e ∉ ht.entries := by
    intro e he
    have hk := occ_key_mem_occKeysL ht.entries e he
    rw [show occKeysL ht.entries = [] from hkeys] at hk
    simp at hk
  refine ⟨?_, rfl, by decide⟩
  simp only [ht_delete, deleteGo]
  rw [if_pos hload, ht_resize_down, hbase]
  rw [show ((1 : Nat) : Int) / 2 = 0 by decide]
  rw [ht_resize, if_neg (by decide : ¬ (0 : Int) < 0)]
  rw [fold_no_occ (insertGo probe fuel) ht.entries (ht_init (0 : Int).toNat) hnoocc]
  show deleteWalk probe (fuel + 1) (ht_init 0) k (probe k (ht_init 0).capacity 0) 0 =
    some (0, ht_init 0)
  simp only [deleteWalk]
  have hslot : slotAt (ht_init 0) (probe k (ht_init 0).capacity 0) = Slot.empty := by
    simp only [slotAt, ht_init]
    exact lh_getD_replicate _ _
  rw [hslot]

/-- Witness for C10 at a concrete input: an empty base-capacity-1 table. -/
theorem C10_shrink_bottoms_out_witness :
    INV probe0 (⟨2, 1, 0, [Slot.empty, Slot.empty]⟩ : hash_table) ∧
    (⟨2, 1, 0, [Slot.empty, Slot.empty]⟩ : hash_table).base_capacity = 1 ∧
    (⟨2, 1, 0, [Slot.empty, Slot.empty]⟩ : hash_table).capacity = 2 ∧
    (⟨2, 1, 0, [Slot.empty, Slot.empty]⟩ : hash_table).count * 100 /
      ((⟨2, 1, 0, [Slot.empty, Slot.empty]⟩ : hash_table).capacity : Int) < 10 ∧
    ht_delete probe0 3 (⟨2, 1, 0, [Slot.empty, Slot.empty]⟩ : hash_table) "zz" =
      some (0, ht_init 0) ∧
    (ht_init 0).base_capacity = 50 ∧ (ht_init 0).capacity = 53 := by
  have hinv : INV probe0 (⟨2, 1, 0, [Slot.empty, Slot.empty]⟩ : hash_table) := by
    refine ⟨by decide, by decide, by decide, by decide, ?_⟩
    intro e he
    simp only [List.mem_cons, List.not_mem_nil, or_false] at he
    rcases he with he | he
    · exact Slot.noConfusion he
    · exact Slot.noConfusion he
  have hres := C10_shrink_bottoms_out probe0 2 _ "zz" hinv rfl rfl (by decide)
  exact ⟨hinv, rfl, rfl, by decide, hres.1, hres.2.1, hres.2.2⟩

end LibHash
